import Mathlib

/-!
Verification development for the VSCode extension mirror script (src/main.py).

The script has three operations: crawling the marketplace gallery into an
Index (download-index), printing download links, and mirroring VSIX packages
(mirror-extensions).  We embed the data model and the operations as Lean
definitions and prove the stated properties about them.

Machine-level conventions of the embedding:
- Python strings are Lean String values; Python string comparison is
  code-point lexicographic, embedded below as strLeChars / pyStrLe since the
  builtin String order of Lean does not reduce in the kernel.
- Python dicts (which preserve insertion order and have unique keys) are
  association lists `List (String × β)` together with a no-duplicate-keys
  predicate; lookup is the first match.
- JSON bodies are a small inductive of the shapes the script touches.
- Fallible steps return Except / Option; the unbounded retry loop and the
  unbounded crawl loop take an explicit fuel argument.
-/

namespace VscodeMirror

/- ## Python string ordering (code-point lexicographic) -/

/-- Lexicographic less-or-equal on code-point lists, the comparison Python
uses for `str`.  Embedded directly because the comparison decides the
traversal order of the mirror planner (sorted, sorted, sorted reverse). -/
def strLeChars : List Char → List Char → Bool
  | [], _ => true
  | _ :: _, [] => false
  | a :: as, b :: bs =>
    if a.toNat < b.toNat then true
    else if b.toNat < a.toNat then false
    else strLeChars as bs

/-- Python string less-or-equal: lexicographic on code points. -/
def pyStrLe (a b : String) : Bool := strLeChars a.data b.data

/-- Propositional form of the Python string order. -/
def pyLe (a b : String) : Prop := pyStrLe a b = true

instance : DecidableRel pyLe := fun a b => inferInstanceAs (Decidable (pyStrLe a b = true))

theorem strLeChars_refl : ∀ l : List Char, strLeChars l l = true
  | [] => rfl
  | a :: as => by
    simp only [strLeChars, lt_irrefl, if_false]
    exact strLeChars_refl as

theorem strLeChars_total : ∀ l m : List Char, strLeChars l m = true ∨ strLeChars m l = true
  | [], _ => Or.inl rfl
  | _ :: _, [] => Or.inr rfl
  | a :: as, b :: bs => by
    by_cases hab : a.toNat < b.toNat
    · exact Or.inl (by simp [strLeChars, hab])
    · by_cases hba : b.toNat < a.toNat
      · exact Or.inr (by simp [strLeChars, hba])
      · have := strLeChars_total as bs
        rcases this with h | h
        · exact Or.inl (by simp [strLeChars, hab, hba, h])
        · exact Or.inr (by simp [strLeChars, hab, hba, h])

theorem strLeChars_trans : ∀ l m n : List Char,
    strLeChars l m = true → strLeChars m n = true → strLeChars l n = true
  | [], _, _, _, _ => rfl
  | _ :: _, [], _, h, _ => by simp [strLeChars] at h
  | _ :: _, _ :: _, [], _, h => by simp [strLeChars] at h
  | a :: as, b :: bs, c :: cs, h₁, h₂ => by
    by_cases hab : a.toNat < b.toNat
    · by_cases hbc : b.toNat < c.toNat
      · have hac : a.toNat < c.toNat := lt_trans hab hbc
        simp [strLeChars, hac]
      · by_cases hcb : c.toNat < b.toNat
        · simp [strLeChars, hbc, hcb] at h₂
        · have hbc' : b.toNat = c.toNat := le_antisymm (not_lt.mp hcb) (not_lt.mp hbc)
          have hac : a.toNat < c.toNat := hbc' ▸ hab
          simp [strLeChars, hac]
    · by_cases hba : b.toNat < a.toNat
      · simp [strLeChars, hab, hba] at h₁
      · have hab' : a.toNat = b.toNat := le_antisymm (not_lt.mp hba) (not_lt.mp hab)
        by_cases hbc : b.toNat < c.toNat
        · have hac : a.toNat < c.toNat := hab' ▸ hbc
          simp [strLeChars, hac]
        · by_cases hcb : c.toNat < b.toNat
          · simp [strLeChars, hbc, hcb] at h₂
          · have hbc' : b.toNat = c.toNat := le_antisymm (not_lt.mp hcb) (not_lt.mp hbc)
            have hac : ¬ a.toNat < c.toNat := by omega
            have hca : ¬ c.toNat < a.toNat := by omega
            simp only [strLeChars, hab, hba, if_false] at h₁
            simp only [strLeChars, hbc, hcb, if_false] at h₂
            simp only [strLeChars, hac, hca, if_false]
            exact strLeChars_trans as bs cs h₁ h₂

theorem strLeChars_antisymm : ∀ l m : List Char,
    strLeChars l m = true → strLeChars m l = true → l = m
  | [], [], _, _ => rfl
  | [], _ :: _, _, h => by simp [strLeChars] at h
  | _ :: _, [], h, _ => by simp [strLeChars] at h
  | a :: as, b :: bs, h₁, h₂ => by
    by_cases hab : a.toNat < b.toNat
    · have hba : ¬ b.toNat < a.toNat := by omega
      simp [strLeChars, hab, hba] at h₂
    · by_cases hba : b.toNat < a.toNat
      · simp [strLeChars, hab, hba] at h₁
      · have hab' : a.toNat = b.toNat := le_antisymm (not_lt.mp hba) (not_lt.mp hab)
        have hchar : a = b := Char.ext (UInt32.toNat.inj hab')
        simp only [strLeChars, hab, hba, if_false] at h₁ h₂
        rw [hchar, strLeChars_antisymm as bs h₁ h₂]

theorem pyLe_refl (a : String) : pyLe a a := strLeChars_refl a.data

theorem pyLe_total (a b : String) : pyLe a b ∨ pyLe b a := strLeChars_total a.data b.data

theorem pyLe_trans {a b c : String} (h₁ : pyLe a b) (h₂ : pyLe b c) : pyLe a c :=
  strLeChars_trans a.data b.data c.data h₁ h₂

theorem pyLe_antisymm {a b : String} (h₁ : pyLe a b) (h₂ : pyLe b a) : a = b :=
  String.ext (strLeChars_antisymm a.data b.data h₁ h₂)

instance : IsTotal String pyLe := ⟨pyLe_total⟩

instance : IsTrans String pyLe := ⟨fun _ _ _ => pyLe_trans⟩

/-- The flipped order, used for the descending version sort. -/
def pyGe (a b : String) : Prop := pyLe b a

instance : DecidableRel pyGe := fun a b => inferInstanceAs (Decidable (pyLe b a))

instance : IsTotal String pyGe := ⟨fun a b => pyLe_total b a⟩

instance : IsTrans String pyGe := ⟨fun _ _ _ h₁ h₂ => pyLe_trans h₂ h₁⟩

/- ## JSON values (the shapes the script touches) -/

/-- JSON values as needed by the script: strings, arrays and objects.
Objects are association lists in document order. -/
inductive Json where
  | str : String → Json
  | arr : List Json → Json
  | obj : List (String × Json) → Json

/-- First-match lookup in an association list, the semantics of lookup in a
Python dict (whose keys are unique). -/
def lookupKey {β : Type} (l : List (String × β)) (k : String) : Option β :=
  (l.find? (fun u => u.1 == k)).map (fun u => u.2)

/- ## Error classification during the crawl (retry_manager_fn) -/

/-- Exceptions that can reach the retry classifier: the structured
ExtensionEndpointError raised by post_extension_query for a non-ok HTTP
response (carrying the JSON error body), and transport-level failures
(connection errors, timeouts) raised by the HTTP library. -/
inductive Exc where
  | endpointError (data : List (String × Json))
  | transportError

/-- True exactly on the structured ExtensionEndpointError wrapper. -/
def isEndpointError : Exc → Bool
  | .endpointError _ => true
  | .transportError => false

/-- The typeKey value the classifier recognises as retryable. -/
def circuitBreakerMarker : String := "CircuitBreakerExceededExecutionLimitException"

/-- Embedding of retry_manager_fn (src/main.py lines 62-72): approve a retry
only for an ExtensionEndpointError whose body has a typeKey field equal to
the circuit breaker marker; in every other case return false. -/
def retry_manager_fn : Exc → Bool
  | .endpointError data =>
    match lookupKey data "typeKey" with
    | some (Json.str s) => s == circuitBreakerMarker
    | some _ => false
    | none => false
  | .transportError => false

/-- Modelled from the spec: the retry harness around post_extension_query
(the external retrying decorator, configured with retry_manager_fn) is not
part of src; per the spec it re-invokes the call when the classification
function returns true and otherwise stops retrying, surfacing the exception.
The fuel argument bounds the number of retries so the model terminates. -/
def retryCall {α : Type} (call : Nat → Except Exc α) : Nat → Nat → Except Exc α
  | attempt, fuel =>
    match call attempt with
    | .ok a => .ok a
    | .error e =>
      match fuel with
      | 0 => .error e
      | f + 1 => if retry_manager_fn e then retryCall call (attempt + 1) f else .error e

/- ## Exponential backoff configuration -/

/-- Backoff multiplier configured on the retry decorator, in milliseconds
(src/main.py line 77). -/
def wait_exponential_multiplier : Nat := 1000

/-- Backoff cap configured on the retry decorator, in milliseconds
(src/main.py line 78). -/
def wait_exponential_max : Nat := 60000

/-- Modelled from the spec: the exponential backoff computation lives in the
external retrying library, not in src; the spec gives wait = min(base times
2 to the attempt, cap) with base 1 unit and cap 60 units, the unit being the
configured multiplier of 1000 ms.  n is the 1-based retry attempt number, so
the wait before retry n (after the n-th consecutive failure) in milliseconds
is min(multiplier times 2 to the (n-1), max). -/
def waitBeforeRetryMs (n : Nat) : Nat :=
  min (wait_exponential_multiplier * 2 ^ (n - 1)) wait_exponential_max

/-- The wait before retry attempt n expressed in base units (seconds). -/
def waitBeforeRetry (n : Nat) : Nat := waitBeforeRetryMs n / 1000

/- ## Artifact URL construction (get_vspackage_path) -/

/-- Embedding of get_vspackage_path (src/main.py lines 91-94): substitute the
publisher name, extension name and version into the package download URL
template. -/
def get_vspackage_path (publisher_name extension_name version : String) : String :=
  "https://marketplace.visualstudio.com/_apis/public/gallery/publishers/"
    ++ publisher_name ++ "/vsextensions/" ++ extension_name ++ "/" ++ version
    ++ "/vspackage"

/- ## The Index: publisher → extension → list of versions -/

/-- The Index data model: an association list from publisher name to an
association list from extension name to the list of version strings, in
insertion order (the embedding of the nested Python dicts). -/
abbrev Index := List (String × List (String × List String))

/-- Insert-or-update in the association-list embedding of a Python
defaultdict: apply f to the value at an existing key in place, or append the
key at the end with f applied to the default (dicts preserve insertion
order). -/
def appendAt {β : Type} (l : List (String × β)) (k : String) (dflt : β) (f : β → β) :
    List (String × β) :=
  match l with
  | [] => [(k, f dflt)]
  | (k₂, v) :: rest => if k₂ = k then (k₂, f v) :: rest else (k₂, v) :: appendAt rest k dflt f

/-- Embedding of the accumulation statement of download_index (src/main.py
lines 186-188): append one version string under its publisher and extension
keys. -/
def addVersion (idx : Index) (pub ext ver : String) : Index :=
  appendAt idx pub [] (fun exts => appendAt exts ext [] (fun vers => vers ++ [ver]))

/-- One extension record of a page response: the fields of the response JSON
the crawler reads (publisher.publisherName, extensionName, versions). -/
structure ExtRecord where
  publisherName : String
  extensionName : String
  versions : List String
  deriving DecidableEq

/-- Embedding of the per-record inner loop of download_index (lines
184-188): every version of the record is appended to the Index. -/
def addRecord (idx : Index) (r : ExtRecord) : Index :=
  r.versions.foldl (fun acc v => addVersion acc r.publisherName r.extensionName v) idx

/-- All records of one page appended in order. -/
def addPage (idx : Index) (exts : List ExtRecord) : Index :=
  exts.foldl addRecord idx

/- ## The Gallery Crawler (download_index) -/

/-- One page response as interpreted by download_index: either the body has
no results field, or it has one holding a list of result groups, each group
carrying a list of extension records. -/
inductive PageResponse where
  | noResults
  | results (groups : List (List ExtRecord))

/-- Outcome of a crawl: normal termination with the accumulated Index and
the list of page numbers requested, an uncaught IndexError from reading the
first result group of an empty results array, or fuel exhaustion (the source
loop is unbounded). -/
inductive CrawlResult where
  | finished (index : Index) (requests : List Nat)
  | indexError (requests : List Nat)
  | outOfFuel (requests : List Nat)
  deriving DecidableEq

/-- Embedding of the while loop of download_index (src/main.py lines
164-190), with the page responses supplied as a function of the page number
and an explicit fuel bound. -/
def crawlLoop (pages : Nat → PageResponse) : Nat → Nat → Index → List Nat → CrawlResult
  | 0, _, _, reqs => .outOfFuel reqs
  | fuel + 1, pageNumber, acc, reqs =>
    match pages pageNumber with
    | .noResults => .finished acc (reqs ++ [pageNumber])
    | .results groups =>
      match groups.head? with
      | none => .indexError (reqs ++ [pageNumber])
      | some exts =>
        if exts.length = 0 then .finished acc (reqs ++ [pageNumber])
        else crawlLoop pages fuel (pageNumber + 1) (addPage acc exts) (reqs ++ [pageNumber])

/-- Embedding of download_index (lines 154-195): start at page 1 with an
empty Index and no requests issued. -/
def download_index (pages : Nat → PageResponse) (fuel : Nat) : CrawlResult :=
  crawlLoop pages fuel 1 [] []

/- ## The Mirror Planner (mirror_extensions) -/

/-- Key order on association-list entries, as used by the Python sorted()
calls over dict items (keys are unique, so the key comparison decides). -/
def keyLe {β : Type} (u v : String × β) : Prop := pyLe u.1 v.1

instance {β : Type} : DecidableRel (@keyLe β) :=
  fun u v => inferInstanceAs (Decidable (pyLe u.1 v.1))

instance {β : Type} : IsTotal (String × β) (@keyLe β) := ⟨fun u v => pyLe_total u.1 v.1⟩

instance {β : Type} : IsTrans (String × β) (@keyLe β) := ⟨fun _ _ _ => pyLe_trans⟩

/-- sorted(d.items()): the entries in ascending key order. -/
def sortedItems {β : Type} (l : List (String × β)) : List (String × β) :=
  List.insertionSort (@keyLe β) l

/-- sorted(versions, reverse=True): the version strings in descending
lexicographic (code-point) order. -/
def sortDescending (vs : List String) : List String :=
  List.insertionSort pyGe vs

/-- A download target triple: publisher, extension, version. -/
abbrev Target := String × String × String

/-- The targets contributed by one extension entry: its versions in
descending order. -/
def versionBlock (pub ext : String) (vs : List String) : List Target :=
  (sortDescending vs).map (fun v => (pub, ext, v))

/-- The targets contributed by one publisher entry: its extensions in
ascending key order. -/
def extBlock (pub : String) (exts : List (String × List String)) : List Target :=
  (sortedItems exts).flatMap (fun ev => versionBlock pub ev.1 ev.2)

/-- Embedding of the triple nested loop of mirror_extensions (src/main.py
lines 132-137): the download targets in visit order. -/
def planTargets (idx : Index) : List Target :=
  (sortedItems idx).flatMap (fun pe => extBlock pe.1 pe.2)

/-- The one exception subprocess.check_call can raise on a completed
process: a non-zero exit status. -/
inductive SubprocessError where
  | calledProcessError (returncode : Nat)
  deriving DecidableEq

/-- Embedding of subprocess.check_call of the wget fetch: raises
CalledProcessError exactly on a non-zero exit status. -/
def check_call (exitStatus : Nat) : Except SubprocessError Unit :=
  if exitStatus = 0 then .ok () else .error (.calledProcessError exitStatus)

/-- One iteration of the mirror loop body (lines 146-151): the download is
attempted, and a CalledProcessError is caught and logged, so the iteration
itself completes normally either way. -/
def downloadStep (exitStatus : Target → Nat) (t : Target) : Except SubprocessError Unit :=
  match check_call (exitStatus t) with
  | .ok _ => .ok ()
  | .error (.calledProcessError _) => .ok ()

/-- The mirror loop over a list of targets; an uncaught exception in an
iteration would abort the whole run with that error.  Returns the targets
for which a download was executed, in order. -/
def mirrorLoop (exitStatus : Target → Nat) : List Target → Except SubprocessError (List Target)
  | [] => .ok []
  | t :: ts =>
    match downloadStep exitStatus t with
    | .error e => .error e
    | .ok _ =>
      match mirrorLoop exitStatus ts with
      | .error e => .error e
      | .ok done => .ok (t :: done)

/-- Embedding of mirror-extensions (src/main.py lines 120-151),
parameterised by the exit status of the external wget fetch per target. -/
def mirror_extensions (exitStatus : Target → Nat) (idx : Index) :
    Except SubprocessError (List Target) :=
  mirrorLoop exitStatus (planTargets idx)

/- ## Index persistence (json.dump with sort_keys, json.load) -/

/-- The keys of an association list, in order. -/
def keysOf {β : Type} (l : List (String × β)) : List String := l.map (fun u => u.1)

/-- The dict invariants of a real Index: no duplicate publisher keys, and no
duplicate extension keys under any publisher (Python dict keys are
unique). -/
def NodupIndex (x : Index) : Prop :=
  (keysOf x).Nodup ∧ ∀ pe ∈ x, (keysOf pe.2).Nodup

instance (x : Index) : Decidable (NodupIndex x) :=
  decidable_of_iff ((keysOf x).Nodup ∧ ∀ pe ∈ x, (keysOf pe.2).Nodup) Iff.rfl

/-- Two-level lookup in an Index. -/
def lookup2 (x : Index) (pub ext : String) : Option (List String) :=
  match lookupKey x pub with
  | some exts => lookupKey exts ext
  | none => none

/-- The canonical (sorted-key) form of an Index, the shape json.dump with
sort_keys=True writes: publisher keys sorted, extension keys sorted, version
lists kept in stored order (sort_keys only sorts object keys). -/
def canon (x : Index) : Index :=
  (sortedItems x).map (fun pe => (pe.1, sortedItems pe.2))

/-- The JSON value written for the extension dict of one publisher. -/
def encodeExts (exts : List (String × List String)) : Json :=
  .obj ((sortedItems exts).map (fun ev => (ev.1, Json.arr (ev.2.map Json.str))))

/-- Embedding of json.dump(extension_data, index_file, sort_keys=True)
(src/main.py line 194) at the JSON-value level: the object tree with all
object keys sorted. -/
def encodeIndex (x : Index) : Json :=
  .obj ((sortedItems x).map (fun pe => (pe.1, encodeExts pe.2)))

/-- Decode a JSON array of strings. -/
def decodeStrings : List Json → Option (List String)
  | [] => some []
  | Json.str s :: rest =>
    match decodeStrings rest with
    | some l => some (s :: l)
    | none => none
  | _ => none

/-- Decode the versions value of one extension key. -/
def decodeVersions : Json → Option (List String)
  | Json.arr vs => decodeStrings vs
  | _ => none

/-- Decode the fields of one publisher object. -/
def decodeExtFields : List (String × Json) → Option (List (String × List String))
  | [] => some []
  | (k, j) :: rest =>
    match decodeVersions j, decodeExtFields rest with
    | some vs, some l => some ((k, vs) :: l)
    | _, _ => none

/-- Decode the extension dict of one publisher. -/
def decodeExts : Json → Option (List (String × List String))
  | Json.obj fs => decodeExtFields fs
  | _ => none

/-- Decode the fields of the top-level object. -/
def decodeIndexFields : List (String × Json) → Option Index
  | [] => some []
  | (k, j) :: rest =>
    match decodeExts j, decodeIndexFields rest with
    | some e, some l => some ((k, e) :: l)
    | _, _ => none

/-- Embedding of json.load of an index file (src/main.py lines 109, 127) on
a JSON value: rebuild the Index in document order, or fail on any value of
the wrong shape. -/
def decodeIndex : Json → Option Index
  | Json.obj fs => decodeIndexFields fs
  | _ => none

/-- Modelled from the spec: json.dump serialises to text; only quote and
backslash escaping is modelled (the json module escapes more, but the
canonical-form argument needs only that the text is a function of the
sorted-key tree). -/
def jsonEscape (s : String) : String :=
  s.data.foldl (fun acc c =>
    if c = '\\' then acc ++ "\\\\"
    else if c = '"' then acc ++ "\\\""
    else acc.push c) ""

/-- A JSON string literal. -/
def jsonQuote (s : String) : String := "\"" ++ jsonEscape s ++ "\""

/-- The text of a version array. -/
def versionsText (vs : List String) : String :=
  "[" ++ String.intercalate ", " (vs.map jsonQuote) ++ "]"

/-- The text of one publisher object, extension keys sorted. -/
def extsText (exts : List (String × List String)) : String :=
  "\x7b" ++ String.intercalate ", "
    ((sortedItems exts).map (fun ev => jsonQuote ev.1 ++ ": " ++ versionsText ev.2)) ++ "\x7d"

/-- Modelled from the spec: the persisted textual form of an Index as
written by json.dump with sort_keys=True and default separators. -/
def encodeIndexText (x : Index) : String :=
  "\x7b" ++ String.intercalate ", "
    ((sortedItems x).map (fun pe => jsonQuote pe.1 ++ ": " ++ extsText pe.2)) ++ "\x7d"

/- ## Helper lemmas for the retry and mirror loops -/

theorem downloadStep_ok (exitStatus : Target → Nat) (t : Target) :
    downloadStep exitStatus t = Except.ok () := by
  unfold downloadStep check_call
  by_cases h : exitStatus t = 0 <;> simp [h]

theorem mirrorLoop_ok (exitStatus : Target → Nat) :
    ∀ ts : List Target, mirrorLoop exitStatus ts = Except.ok ts
  | [] => rfl
  | t :: ts => by
    simp [mirrorLoop, downloadStep_ok, mirrorLoop_ok exitStatus ts]

/- ## Claim theorems -/

/-- C1: for a structured endpoint error, retry_manager_fn approves a retry
exactly when the typeKey marker of the error body is the circuit breaker
marker; for any other or missing marker it returns false, and the retry
harness then stops retrying, so the error is surfaced. -/
theorem c1_structured_error_classification (data : List (String × Json)) :
    (retry_manager_fn (Exc.endpointError data) = true ↔
      lookupKey data "typeKey" = some (Json.str circuitBreakerMarker))
    ∧ (retry_manager_fn (Exc.endpointError data) = false →
        ∀ (attempt fuel : Nat),
          retryCall (fun _ => (Except.error (Exc.endpointError data) : Except Exc Nat))
            attempt fuel = Except.error (Exc.endpointError data)) := by
  constructor
  · simp only [retry_manager_fn]
    cases h : lookupKey data "typeKey" with
    | none => simp
    | some v =>
      cases v with
      | str s => simp [beq_iff_eq]
      | arr xs => simp
      | obj fs => simp
  · intro hfalse attempt fuel
    cases fuel with
    | zero => simp [retryCall]
    | succ f => simp [retryCall, hfalse]

/-- Witness for C1: a structured error with an unrecognised marker is
classified non-retryable and is surfaced by the harness. -/
theorem c1_structured_error_classification_witness :
    retry_manager_fn (Exc.endpointError [("typeKey", Json.str "SomeOtherFault")]) = false
    ∧ retryCall
        (fun _ => (Except.error (Exc.endpointError [("typeKey", Json.str "SomeOtherFault")]) :
          Except Exc Nat)) 0 5
      = Except.error (Exc.endpointError [("typeKey", Json.str "SomeOtherFault")]) :=
  ⟨by decide,
    (c1_structured_error_classification [("typeKey", Json.str "SomeOtherFault")]).2 (by decide) 0 5⟩

/-- C2 counterexample: a transport-level failure (an exception that is not a
structured endpoint error) is classified NOT retryable by retry_manager_fn —
the function returns false on it — and the harness therefore surfaces the
exception instead of re-invoking the page request, contradicting the claim
that such failures are retried. -/
theorem c2_transport_retry_counterexample :
    retry_manager_fn Exc.transportError = false
    ∧ retryCall (fun _ => (Except.error Exc.transportError : Except Exc Nat)) 0 5
      = Except.error Exc.transportError := by
  refine ⟨rfl, ?_⟩
  simp [retryCall, retry_manager_fn]

/-- C2 amended: every exception that is not a structured endpoint error
(connection errors, timeouts) is classified non-retryable by
retry_manager_fn, so the retry harness does not re-invoke the page request
and the exception propagates. -/
theorem c2_transport_not_retried (e : Exc) (h : isEndpointError e = false) :
    retry_manager_fn e = false
    ∧ ∀ (attempt fuel : Nat),
        retryCall (fun _ => (Except.error e : Except Exc Nat)) attempt fuel =
          Except.error e := by
  cases e with
  | endpointError data => simp [isEndpointError] at h
  | transportError =>
    refine ⟨rfl, fun attempt fuel => ?_⟩
    cases fuel with
    | zero => simp [retryCall]
    | succ f => simp [retryCall, retry_manager_fn]

/-- Witness for the amended C2 at a concrete transport failure. -/
theorem c2_transport_not_retried_witness :
    isEndpointError Exc.transportError = false
    ∧ retry_manager_fn Exc.transportError = false
    ∧ retryCall (fun _ => (Except.error Exc.transportError : Except Exc Nat)) 0 3 =
        Except.error Exc.transportError :=
  ⟨rfl, (c2_transport_not_retried Exc.transportError rfl).1,
    (c2_transport_not_retried Exc.transportError rfl).2 0 3⟩

/-- C3: the wait before retry attempt n is min(2 to the (n-1), 60) base
units with base 1 and cap 60: the first three consecutive retryable
failures produce waits of 1, 2, 4 units, no wait ever exceeds the 60 unit
cap, and from attempt 7 on the wait is exactly 60 units. -/
theorem c3_exponential_backoff :
    waitBeforeRetry 1 = 1 ∧ waitBeforeRetry 2 = 2 ∧ waitBeforeRetry 3 = 4
    ∧ (∀ n, waitBeforeRetry n ≤ 60)
    ∧ (∀ n, 7 ≤ n → waitBeforeRetry n = 60) := by
  refine ⟨by decide, by decide, by decide, ?_, ?_⟩
  · intro n
    unfold waitBeforeRetry
    have h : waitBeforeRetryMs n ≤ 60000 := min_le_right _ _
    calc waitBeforeRetryMs n / 1000 ≤ 60000 / 1000 := Nat.div_le_div_right h
      _ = 60 := by norm_num
  · intro n hn
    unfold waitBeforeRetry waitBeforeRetryMs wait_exponential_multiplier wait_exponential_max
    have h64 : (64 : Nat) ≤ 2 ^ (n - 1) := by
      calc (64 : Nat) = 2 ^ 6 := by norm_num
        _ ≤ 2 ^ (n - 1) := Nat.pow_le_pow_right (by norm_num) (by omega)
    have hcap : (60000 : Nat) ≤ 1000 * 2 ^ (n - 1) := by
      calc (60000 : Nat) ≤ 1000 * 64 := by norm_num
        _ ≤ 1000 * 2 ^ (n - 1) := Nat.mul_le_mul_left 1000 h64
    rw [min_eq_right hcap]

/-- Witness for C3 at attempt 8, past the cap threshold. -/
theorem c3_exponential_backoff_witness :
    (7 : Nat) ≤ 8 ∧ waitBeforeRetry 8 = 60 :=
  ⟨by decide, c3_exponential_backoff.2.2.2.2 8 (by decide)⟩

/-- C4: a crawl whose first page carries a non-empty extension list and
whose second page carries an empty extension list issues exactly the two
page requests for pages 1 and 2 and finishes with an Index holding exactly
the first page records. -/
theorem c4_two_page_termination (pages : Nat → PageResponse) (fuel : Nat)
    (exts₁ : List ExtRecord) (gs₁ gs₂ : List (List ExtRecord))
    (hp₁ : pages 1 = PageResponse.results gs₁) (hh₁ : gs₁.head? = some exts₁)
    (hne : exts₁ ≠ [])
    (hp₂ : pages 2 = PageResponse.results gs₂) (hh₂ : gs₂.head? = some [])
    (hfuel : 2 ≤ fuel) :
    download_index pages fuel = CrawlResult.finished (addPage [] exts₁) [1, 2] := by
  obtain ⟨k, rfl⟩ := Nat.exists_eq_add_of_le hfuel
  have hlen : ¬ exts₁.length = 0 := by simpa [List.length_eq_zero] using hne
  show crawlLoop pages (2 + k) 1 [] [] = _
  have h2k : 2 + k = (k + 1) + 1 := by omega
  rw [h2k]
  simp [crawlLoop, hp₁, hh₁, hlen, hp₂, hh₂]

/-- A concrete response sequence for the C4 witness: one record on page 1,
an empty extension list on page 2. -/
def pagesTwoThenEmpty : Nat → PageResponse
  | 1 => PageResponse.results [[⟨"acme", "foo", ["1.0.0"]⟩]]
  | 2 => PageResponse.results [[]]
  | _ => PageResponse.noResults

/-- Witness for C4 on the concrete two-page response sequence. -/
theorem c4_two_page_termination_witness :
    download_index pagesTwoThenEmpty 5 =
      CrawlResult.finished (addPage [] [⟨"acme", "foo", ["1.0.0"]⟩]) [1, 2] :=
  c4_two_page_termination pagesTwoThenEmpty 5 _ _ _ rfl rfl (by decide) rfl rfl (by decide)

/-- C7: a failed download (non-zero exit status of the external fetch) never
aborts a mirror run: for every exit status assignment the run completes
without an uncaught exception, executing a download for every planned
target; in particular with three targets and the second one failing, the
first and third still execute. -/
theorem c7_partial_failure_isolation :
    (∀ (exitStatus : Target → Nat) (idx : Index),
      mirror_extensions exitStatus idx = Except.ok (planTargets idx))
    ∧ mirror_extensions (fun t => if t.2.2 = "2.0.0" then 8 else 0)
        [("acme", [("foo", ["1.0.0", "2.0.0", "3.0.0"])])] =
      Except.ok [("acme", "foo", "3.0.0"), ("acme", "foo", "2.0.0"), ("acme", "foo", "1.0.0")] := by
  constructor
  · intro exitStatus idx
    exact mirrorLoop_ok exitStatus (planTargets idx)
  · unfold mirror_extensions
    rw [mirrorLoop_ok]
    exact congrArg Except.ok (by decide)

/-- C9: a page response whose results field is present but an empty array
does not terminate the crawl cleanly: reading the first result group fails
(index out of range) and the crawl crashes after that one request, so clean
termination through the extension-list check needs a non-empty results
array. -/
theorem c9_empty_results_is_error (pages : Nat → PageResponse) (fuel : Nat)
    (hp₁ : pages 1 = PageResponse.results []) (hfuel : 1 ≤ fuel) :
    download_index pages fuel = CrawlResult.indexError [1] := by
  obtain ⟨k, rfl⟩ := Nat.exists_eq_add_of_le hfuel
  have h1k : 1 + k = k + 1 := by omega
  show crawlLoop pages (1 + k) 1 [] [] = _
  rw [h1k]
  simp [crawlLoop, hp₁]

/-- A concrete response whose first page has a present but empty results
array, for the C9 witness. -/
def pagesEmptyResults : Nat → PageResponse
  | _ => PageResponse.results []

/-- Witness for C9 on the concrete empty-results response. -/
theorem c9_empty_results_is_error_witness :
    download_index pagesEmptyResults 4 = CrawlResult.indexError [1] :=
  c9_empty_results_is_error pagesEmptyResults 4 rfl (by decide)

/-- C8: the artifact URL is exactly the template substitution of publisher,
extension and version, and on rebornix / Ruby / 0.22.3 it is exactly the
documented URL. -/
theorem c8_vspackage_url :
    (∀ p e v, get_vspackage_path p e v =
      "https://marketplace.visualstudio.com/_apis/public/gallery/publishers/"
        ++ p ++ "/vsextensions/" ++ e ++ "/" ++ v ++ "/vspackage")
    ∧ get_vspackage_path "rebornix" "Ruby" "0.22.3" =
      "https://marketplace.visualstudio.com/_apis/public/gallery/publishers/rebornix/vsextensions/Ruby/0.22.3/vspackage" :=
  ⟨fun _ _ _ => rfl, by decide⟩

/- ## Ordering lemmas for the planner traversal -/

theorem mem_versionBlock {pub ext : String} {vs : List String} {t : Target}
    (h : t ∈ versionBlock pub ext vs) : t.1 = pub ∧ t.2.1 = ext := by
  unfold versionBlock at h
  obtain ⟨v, hv, rfl⟩ := List.mem_map.mp h
  exact ⟨rfl, rfl⟩

theorem mem_extBlock {pub : String} {exts : List (String × List String)} {t : Target}
    (h : t ∈ extBlock pub exts) : t.1 = pub := by
  unfold extBlock at h
  obtain ⟨ev, hev, hmem⟩ := List.mem_flatMap.mp h
  exact (mem_versionBlock hmem).1

/-- flatMap over key-sorted blocks is pairwise ordered under a projection
that is constant on each block and equal to the block key. -/
theorem pairwise_flatMap_key {α β : Type} (l : List (String × β)) (f : (String × β) → List α)
    (proj : α → String)
    (hconst : ∀ u ∈ l, ∀ t ∈ f u, proj t = u.1)
    (hsorted : List.Pairwise (@keyLe β) l) :
    List.Pairwise (fun a b => pyLe (proj a) (proj b)) (l.flatMap f) := by
  induction l with
  | nil => simp
  | cons u l ih =>
    rw [List.flatMap_cons]
    rcases List.pairwise_cons.mp hsorted with ⟨hu, hl⟩
    apply List.pairwise_append.mpr
    refine ⟨?_, ?_, ?_⟩
    · apply List.pairwise_of_forall_mem_list
      intro a ha b hb
      rw [hconst u (List.mem_cons_self u l) a ha, hconst u (List.mem_cons_self u l) b hb]
      exact pyLe_refl u.1
    · exact ih (fun w hw => hconst w (List.mem_cons_of_mem _ hw)) hl
    · intro a ha b hb
      obtain ⟨w, hw, hbw⟩ := List.mem_flatMap.mp hb
      rw [hconst u (List.mem_cons_self u l) a ha,
        hconst w (List.mem_cons_of_mem _ hw) b hbw]
      exact hu w hw

/-- Filtering a flatMap by a predicate that is constant on each block and
decided by the block key keeps or removes whole blocks. -/
theorem filter_flatMap_blocks {α β : Type} (l : List (String × β)) (f : (String × β) → List α)
    (q : α → Bool) (p : String)
    (hq : ∀ u ∈ l, ∀ t ∈ f u, q t = (u.1 == p)) :
    (l.flatMap f).filter q = (l.filter (fun u => u.1 == p)).flatMap f := by
  induction l with
  | nil => simp
  | cons u l ih =>
    rw [List.flatMap_cons, List.filter_append, List.filter_cons]
    have ih' := ih (fun w hw => hq w (List.mem_cons_of_mem _ hw))
    by_cases hup : (u.1 == p) = true
    · have hfu : (f u).filter q = f u :=
        List.filter_eq_self.mpr (fun t ht => by rw [hq u (List.mem_cons_self u l) t ht, hup])
      simp [hup, hfu, ih', List.flatMap_cons]
    · have hup' : (u.1 == p) = false := by simpa using hup
      have hfu : (f u).filter q = [] := by
        apply List.filter_eq_nil_iff.mpr
        intro t ht
        rw [hq u (List.mem_cons_self u l) t ht, hup']
        exact Bool.false_ne_true
      simp [hup', hfu, ih']

/-- In an association list without duplicate keys, filtering by one key
yields nothing or exactly the unique entry with that key. -/
theorem filter_singleton_of_nodup {β : Type} (l : List (String × β)) (p : String)
    (hn : (keysOf l).Nodup) :
    l.filter (fun u => u.1 == p) = []
    ∨ ∃ b, (p, b) ∈ l ∧ l.filter (fun u => u.1 == p) = [(p, b)] := by
  induction l with
  | nil => exact Or.inl rfl
  | cons u l ih =>
    rw [keysOf, List.map_cons, List.nodup_cons] at hn
    obtain ⟨hu, hl⟩ := hn
    rw [List.filter_cons]
    by_cases hup : (u.1 == p) = true
    · have hup' : u.1 = p := by simpa using hup
      have htail : l.filter (fun u => u.1 == p) = [] := by
        apply List.filter_eq_nil_iff.mpr
        intro v hv
        have hvk : v.1 ∈ keysOf l := List.mem_map_of_mem (fun w => w.1) hv
        intro hvp
        have hvp' : v.1 = p := by simpa using hvp
        exact hu (by rw [hup', ← hvp']; exact hvk)
      have hup2 : u = (p, u.2) := by rw [← hup']
      refine Or.inr ⟨u.2, ?_, ?_⟩
      · rw [← hup2]
        exact List.mem_cons_self u l
      · simp [hup, htail, ← hup2]
    · have hup' : (u.1 == p) = false := by simpa using hup
      rcases ih hl with h | ⟨b, hb, hfb⟩
      · exact Or.inl (by simp [hup', h])
      · exact Or.inr ⟨b, List.mem_cons_of_mem _ hb, by simp [hup', hfb]⟩

/-- Splitting a conjunctive filter into two successive filters. -/
theorem filter_and_eq {α : Type} (l : List α) (p q : α → Bool) :
    l.filter (fun a => p a && q a) = (l.filter p).filter q := by
  induction l with
  | nil => rfl
  | cons a l ih =>
    by_cases hp : p a = true <;> by_cases hq : q a = true <;>
      simp [List.filter_cons, hp, hq, ih]

theorem keysOf_sortedItems_perm {β : Type} (l : List (String × β)) :
    List.Perm (keysOf (sortedItems l)) (keysOf l) := by
  unfold keysOf sortedItems
  exact (List.perm_insertionSort (@keyLe β) l).map (fun u => u.1)

theorem nodup_keys_sortedItems {β : Type} {l : List (String × β)} (h : (keysOf l).Nodup) :
    (keysOf (sortedItems l)).Nodup :=
  ((keysOf_sortedItems_perm l).nodup_iff).mpr h

theorem sorted_extBlock_exts {pub : String} {exts : List (String × List String)} :
    List.Pairwise (fun a b : Target => pyLe a.2.1 b.2.1) (extBlock pub exts) := by
  unfold extBlock
  apply pairwise_flatMap_key
  · intro ev hev t ht
    exact (mem_versionBlock ht).2
  · exact List.sorted_insertionSort _ exts

/-- C5: the mirror planner visits publishers in ascending order, extensions
in ascending order within each publisher, versions in descending order
within each extension (all in the code-point string order used by Python
sorted), and on the documented example index it visits the versions of
acme/foo in the order 2.0.0, 1.5.0, 1.0.0. -/
theorem c5_traversal_order (idx : Index) (hx : NodupIndex idx) :
    List.Pairwise pyLe ((planTargets idx).map (fun t => t.1))
    ∧ (∀ p, List.Pairwise pyLe
        (((planTargets idx).filter (fun t => t.1 == p)).map (fun t => t.2.1)))
    ∧ (∀ p e, List.Pairwise pyGe
        (((planTargets idx).filter (fun t => t.1 == p && t.2.1 == e)).map (fun t => t.2.2)))
    ∧ planTargets [("acme", [("foo", ["1.0.0", "2.0.0", "1.5.0"])])] =
      [("acme", "foo", "2.0.0"), ("acme", "foo", "1.5.0"), ("acme", "foo", "1.0.0")] := by
  have hq1 : ∀ p, ∀ u ∈ sortedItems idx, ∀ t ∈ extBlock u.1 u.2, (t.1 == p) = (u.1 == p) := by
    intro p u hu t ht
    rw [mem_extBlock ht]
  have hfilter : ∀ p, (planTargets idx).filter (fun t => t.1 == p) =
      ((sortedItems idx).filter (fun u => u.1 == p)).flatMap (fun pe => extBlock pe.1 pe.2) := by
    intro p
    unfold planTargets
    exact filter_flatMap_blocks _ _ _ p (hq1 p)
  have hnodup : (keysOf (sortedItems idx)).Nodup := nodup_keys_sortedItems hx.1
  refine ⟨?_, ?_, ?_, by decide⟩
  · rw [List.pairwise_map]
    unfold planTargets
    apply pairwise_flatMap_key
    · intro pe hpe t ht
      exact mem_extBlock ht
    · exact List.sorted_insertionSort _ idx
  · intro p
    rw [List.pairwise_map, hfilter p]
    rcases filter_singleton_of_nodup (sortedItems idx) p hnodup with h | ⟨b, hb, hf⟩
    · rw [h]
      exact List.Pairwise.nil
    · rw [hf]
      simp only [List.flatMap_cons, List.flatMap_nil, List.append_nil]
      exact sorted_extBlock_exts
  · intro p e
    rw [List.pairwise_map, filter_and_eq, hfilter p]
    rcases filter_singleton_of_nodup (sortedItems idx) p hnodup with h | ⟨b, hb, hf⟩
    · rw [h]
      exact List.Pairwise.nil
    · rw [hf]
      simp only [List.flatMap_cons, List.flatMap_nil, List.append_nil]
      unfold extBlock
      have hq2 : ∀ ev ∈ sortedItems b, ∀ t ∈ versionBlock p ev.1 ev.2,
          (t.2.1 == e) = (ev.1 == e) := by
        intro ev hev t ht
        rw [(mem_versionBlock ht).2]
      rw [filter_flatMap_blocks _ _ _ e hq2]
      have hbmem : (p, b) ∈ idx := (List.perm_insertionSort _ idx).mem_iff.mp hb
      have hnodupb : (keysOf (sortedItems b)).Nodup :=
        nodup_keys_sortedItems (hx.2 (p, b) hbmem)
      rcases filter_singleton_of_nodup (sortedItems b) e hnodupb with h2 | ⟨vs, hvs, hf2⟩
      · rw [h2]
        exact List.Pairwise.nil
      · rw [hf2]
        simp only [List.flatMap_cons, List.flatMap_nil, List.append_nil]
        unfold versionBlock
        have : List.Pairwise pyGe (sortDescending vs) := List.sorted_insertionSort pyGe vs
        rw [List.pairwise_map]
        exact this

/-- Witness for C5 at the documented example index. -/
theorem c5_traversal_order_witness :
    NodupIndex [("acme", [("foo", ["1.0.0", "2.0.0", "1.5.0"])])]
    ∧ planTargets [("acme", [("foo", ["1.0.0", "2.0.0", "1.5.0"])])] =
      [("acme", "foo", "2.0.0"), ("acme", "foo", "1.5.0"), ("acme", "foo", "1.0.0")] :=
  ⟨by decide, (c5_traversal_order [("acme", [("foo", ["1.0.0", "2.0.0", "1.5.0"])])]
    (by decide)).2.2.2⟩

/- ## Association-list lookup lemmas -/

theorem lookupKey_nil {β : Type} (k : String) : lookupKey ([] : List (String × β)) k = none :=
  rfl

theorem lookupKey_cons {β : Type} (u : String × β) (l : List (String × β)) (k : String) :
    lookupKey (u :: l) k = if u.1 == k then some u.2 else lookupKey l k := by
  unfold lookupKey
  by_cases h : (u.1 == k) = true <;> simp [List.find?_cons, h]

theorem lookupKey_eq_none_iff {β : Type} {l : List (String × β)} {k : String} :
    lookupKey l k = none ↔ ∀ u ∈ l, u.1 ≠ k := by
  induction l with
  | nil => simp [lookupKey_nil]
  | cons u l ih =>
    rw [lookupKey_cons]
    by_cases h : (u.1 == k) = true
    · have hk : u.1 = k := by simpa using h
      simp [h, hk]
    · have hk : u.1 ≠ k := by simpa using h
      simp [h, ih, hk]

theorem mem_of_lookupKey_eq_some {β : Type} {l : List (String × β)} {k : String} {v : β}
    (h : lookupKey l k = some v) : (k, v) ∈ l := by
  unfold lookupKey at h
  cases hf : l.find? (fun u => u.1 == k) with
  | none => rw [hf] at h; cases h
  | some u =>
    rw [hf] at h
    have hm := List.mem_of_find?_eq_some hf
    have hp := List.find?_some hf
    have hk : u.1 = k := by simpa using hp
    have hv : u.2 = v := by simpa using h
    have hu : u = (k, v) := by rw [← hk, ← hv]
    rwa [← hu]

theorem lookupKey_eq_some_of_mem {β : Type} :
    ∀ {l : List (String × β)} {k : String} {v : β},
      (keysOf l).Nodup → (k, v) ∈ l → lookupKey l k = some v := by
  intro l
  induction l with
  | nil => intro k v _ h; cases h
  | cons u l ih =>
    intro k v hn hm
    rw [keysOf, List.map_cons, List.nodup_cons] at hn
    obtain ⟨hu, hl⟩ := hn
    rw [lookupKey_cons]
    rcases List.mem_cons.mp hm with heq | htail
    · rw [← heq]
      simp
    · have hk : k ∈ keysOf l := by
        unfold keysOf
        exact List.mem_map_of_mem (fun w : String × β => w.1) htail
      have hne : (u.1 == k) = false := by
        simp only [beq_eq_false_iff_ne, ne_eq]
        intro hh
        exact hu (hh ▸ hk)
      rw [hne]
      simp only [Bool.false_eq_true, if_false]
      exact ih hl htail

theorem lookupKey_of_perm {β : Type} {l m : List (String × β)} (hp : List.Perm l m)
    (hn : (keysOf l).Nodup) (k : String) : lookupKey l k = lookupKey m k := by
  have hkeys : List.Perm (keysOf l) (keysOf m) := by
    unfold keysOf
    exact hp.map (fun u => u.1)
  have hnm : (keysOf m).Nodup := hkeys.nodup_iff.mp hn
  cases h : lookupKey l k with
  | some v =>
    have hm : (k, v) ∈ m := hp.mem_iff.mp (mem_of_lookupKey_eq_some h)
    exact (lookupKey_eq_some_of_mem hnm hm).symm
  | none =>
    have hall : ∀ u ∈ l, u.1 ≠ k := lookupKey_eq_none_iff.mp h
    have hallm : ∀ u ∈ m, u.1 ≠ k := fun u hu => hall u (hp.mem_iff.mpr hu)
    exact (lookupKey_eq_none_iff.mpr hallm).symm

/- ## Canonical sorted form of association lists -/

/-- Strict key order between entries: used to show the canonical form is
uniquely determined. -/
def keyStrict {β : Type} (u v : String × β) : Prop := pyLe u.1 v.1 ∧ u.1 ≠ v.1

theorem pairwise_keyStrict_of_nodup {β : Type} {l : List (String × β)}
    (hs : List.Pairwise (@keyLe β) l) (hn : (keysOf l).Nodup) :
    List.Pairwise (@keyStrict β) l := by
  have hne : List.Pairwise (fun u v : String × β => u.1 ≠ v.1) l := by
    unfold keysOf at hn
    exact List.pairwise_map.mp hn
  exact hs.and hne

/-- Two strictly key-sorted association lists with the same lookups are
equal. -/
theorem sortedAssoc_ext {β : Type} :
    ∀ (a b : List (String × β)), List.Pairwise (@keyStrict β) a →
      List.Pairwise (@keyStrict β) b →
      (∀ k, lookupKey a k = lookupKey b k) → a = b := by
  intro a
  induction a with
  | nil =>
    intro b _ _ h
    cases b with
    | nil => rfl
    | cons w b =>
      have hcontra := (h w.1).symm
      rw [lookupKey_nil, lookupKey_cons] at hcontra
      simp at hcontra
  | cons u a ih =>
    intro b ha hb h
    rcases List.pairwise_cons.mp ha with ⟨hu, ha2⟩
    cases b with
    | nil =>
      have hcontra := h u.1
      rw [lookupKey_nil, lookupKey_cons] at hcontra
      simp at hcontra
    | cons w b =>
      rcases List.pairwise_cons.mp hb with ⟨hw, hb2⟩
      have h1 : lookupKey (u :: a) u.1 = some u.2 := by rw [lookupKey_cons]; simp
      have h3 : lookupKey (w :: b) w.1 = some w.2 := by rw [lookupKey_cons]; simp
      have hkey : u.1 = w.1 := by
        by_contra hne
        have h2 := h u.1
        rw [h1, lookupKey_cons] at h2
        have hwu : (w.1 == u.1) = false := by
          simp only [beq_eq_false_iff_ne, ne_eq]
          exact fun hh => hne hh.symm
        rw [hwu] at h2
        simp only [Bool.false_eq_true, if_false] at h2
        have hmemb : (u.1, u.2) ∈ b := mem_of_lookupKey_eq_some h2.symm
        have hwle := hw (u.1, u.2) hmemb
        have h4 := h w.1
        rw [h3, lookupKey_cons] at h4
        have huw : (u.1 == w.1) = false := by
          simp only [beq_eq_false_iff_ne, ne_eq]
          exact hne
        rw [huw] at h4
        simp only [Bool.false_eq_true, if_false] at h4
        have hmema : (w.1, w.2) ∈ a := mem_of_lookupKey_eq_some h4
        have hule := hu (w.1, w.2) hmema
        exact hne (pyLe_antisymm hule.1 hwle.1)
      have hval : u.2 = w.2 := by
        have h2 := h u.1
        rw [h1, lookupKey_cons] at h2
        have hw1 : (w.1 == u.1) = true := by simp [hkey]
        rw [hw1] at h2
        simp only [if_true] at h2
        exact (Option.some.inj h2.symm).symm
      have htails : ∀ k, lookupKey a k = lookupKey b k := by
        intro k
        by_cases hk : k = u.1
        · have hna : lookupKey a k = none :=
            lookupKey_eq_none_iff.mpr (fun v hv => by
              rw [hk]
              exact fun hh => (hu v hv).2 hh.symm)
          have hnb : lookupKey b k = none :=
            lookupKey_eq_none_iff.mpr (fun v hv => by
              rw [hk, hkey]
              exact fun hh => (hw v hv).2 hh.symm)
          rw [hna, hnb]
        · have hu1 : (u.1 == k) = false := by
            simp only [beq_eq_false_iff_ne, ne_eq]
            exact fun hh => hk hh.symm
          have hw1 : (w.1 == k) = false := by
            rw [← hkey]
            exact hu1
          have hkk := h k
          rw [lookupKey_cons, lookupKey_cons, hu1, hw1] at hkk
          simpa using hkk
      have huw : u = w := by
        have he : u = (u.1, u.2) := rfl
        rw [he, hkey, hval]
      rw [huw, ih b ha2 hb2 htails]

/- ## Round trip of the persisted Index -/

theorem decodeStrings_map_str : ∀ vs : List String, decodeStrings (vs.map Json.str) = some vs
  | [] => rfl
  | v :: vs => by simp [decodeStrings, decodeStrings_map_str vs]

theorem decodeExtFields_encode : ∀ l : List (String × List String),
    decodeExtFields (l.map (fun ev => (ev.1, Json.arr (ev.2.map Json.str)))) = some l
  | [] => rfl
  | (k, vs) :: l => by
    simp [decodeExtFields, decodeVersions, decodeStrings_map_str vs, decodeExtFields_encode l]

theorem decodeExts_encodeExts (exts : List (String × List String)) :
    decodeExts (encodeExts exts) = some (sortedItems exts) := by
  unfold encodeExts decodeExts
  exact decodeExtFields_encode (sortedItems exts)

theorem decodeIndexFields_encode : ∀ l : Index,
    decodeIndexFields (l.map (fun pe => (pe.1, encodeExts pe.2))) =
      some (l.map (fun pe => (pe.1, sortedItems pe.2)))
  | [] => rfl
  | (k, exts) :: l => by
    simp [decodeIndexFields, decodeExts_encodeExts, decodeIndexFields_encode l]

theorem decodeIndex_encodeIndex (x : Index) :
    decodeIndex (encodeIndex x) = some (canon x) := by
  unfold encodeIndex decodeIndex canon
  exact decodeIndexFields_encode (sortedItems x)

/- ## Lookup preservation by the canonical form -/

theorem lookupKey_map_value {β γ : Type} (l : List (String × β)) (g : String × β → γ)
    (k : String) :
    lookupKey (l.map (fun u => (u.1, g u))) k = (l.find? (fun u => u.1 == k)).map g := by
  induction l with
  | nil => rfl
  | cons u l ih =>
    rw [List.map_cons, lookupKey_cons]
    by_cases h : (u.1 == k) = true <;> simp [List.find?_cons, h, ih]

theorem canon_keys_perm (x : Index) : List.Perm (keysOf (canon x)) (keysOf x) := by
  unfold canon
  have h1 : keysOf ((sortedItems x).map (fun pe => (pe.1, sortedItems pe.2))) =
      keysOf (sortedItems x) := by
    unfold keysOf
    rw [List.map_map]
    congr 1
  rw [h1]
  exact keysOf_sortedItems_perm x

theorem lookupKey_canon (x : Index) (hx : NodupIndex x) (p : String) :
    lookupKey (canon x) p = (lookupKey x p).map sortedItems := by
  unfold canon
  rw [lookupKey_map_value]
  have hsect : lookupKey (sortedItems x) p = lookupKey x p :=
    lookupKey_of_perm (List.perm_insertionSort (@keyLe _) x) (nodup_keys_sortedItems hx.1) p
  rw [← hsect]
  unfold lookupKey
  rw [Option.map_map]
  rfl

theorem lookupKey_canon_isSome (x : Index) (hx : NodupIndex x) (p : String) :
    (lookupKey (canon x) p).isSome = (lookupKey x p).isSome := by
  rw [lookupKey_canon x hx p]
  cases lookupKey x p <;> rfl

theorem lookup2_canon (x : Index) (hx : NodupIndex x) (p e : String) :
    lookup2 (canon x) p e = lookup2 x p e := by
  unfold lookup2
  rw [lookupKey_canon x hx p]
  cases h : lookupKey x p with
  | none => rfl
  | some exts =>
    show lookupKey (sortedItems exts) e = lookupKey exts e
    have hmem : (p, exts) ∈ x := mem_of_lookupKey_eq_some h
    exact lookupKey_of_perm (List.perm_insertionSort (@keyLe _) exts)
      (nodup_keys_sortedItems (hx.2 (p, exts) hmem)) e

/- ## Canonicity of the encoded form -/

/-- The encoder as a function of the canonical sorted form. -/
def encodeCanon (c : Index) : Json :=
  .obj (c.map (fun pe =>
    (pe.1, Json.obj (pe.2.map (fun ev => (ev.1, Json.arr (ev.2.map Json.str)))))))

theorem encodeIndex_eq_encodeCanon (x : Index) : encodeIndex x = encodeCanon (canon x) := by
  unfold encodeIndex encodeCanon canon encodeExts
  rw [List.map_map]
  congr 1

/-- The text of one publisher object without re-sorting (for an already
canonical entry). -/
def extsTextPlain (exts : List (String × List String)) : String :=
  "\x7b" ++ String.intercalate ", "
    (exts.map (fun ev => jsonQuote ev.1 ++ ": " ++ versionsText ev.2)) ++ "\x7d"

/-- The textual form as a function of the canonical sorted form. -/
def textOfCanon (c : Index) : String :=
  "\x7b" ++ String.intercalate ", "
    (c.map (fun pe => jsonQuote pe.1 ++ ": " ++ extsTextPlain pe.2)) ++ "\x7d"

theorem encodeIndexText_eq_textOfCanon (x : Index) :
    encodeIndexText x = textOfCanon (canon x) := by
  unfold encodeIndexText textOfCanon canon extsText extsTextPlain
  rw [List.map_map]
  congr 1

theorem canon_pairwise_strict (x : Index) (hx : NodupIndex x) :
    List.Pairwise (@keyStrict (List (String × List String))) (canon x) := by
  apply pairwise_keyStrict_of_nodup
  · unfold canon
    apply List.pairwise_map.mpr
    exact List.sorted_insertionSort (@keyLe _) x
  · exact (canon_keys_perm x).nodup_iff.mpr hx.1

/-- Two key-nodup indexes with the same publisher presence and the same
two-level lookups have the same canonical form. -/
theorem canon_eq_of_lookup_eq (x y : Index) (hx : NodupIndex x) (hy : NodupIndex y)
    (hsome : ∀ p, (lookupKey y p).isSome = (lookupKey x p).isSome)
    (hlook : ∀ p e, lookup2 y p e = lookup2 x p e) :
    canon y = canon x := by
  apply sortedAssoc_ext (canon y) (canon x) (canon_pairwise_strict y hy)
    (canon_pairwise_strict x hx)
  intro p
  rw [lookupKey_canon y hy p, lookupKey_canon x hx p]
  cases hyp : lookupKey y p with
  | none =>
    have h0 := hsome p
    rw [hyp] at h0
    cases hxp : lookupKey x p with
    | none => rfl
    | some extsX => rw [hxp] at h0; simp at h0
  | some extsY =>
    have h0 := hsome p
    rw [hyp] at h0
    cases hxp : lookupKey x p with
    | none => rw [hxp] at h0; simp at h0
    | some extsX =>
      show some (sortedItems extsY) = some (sortedItems extsX)
      congr 1
      have hmemY : (p, extsY) ∈ y := mem_of_lookupKey_eq_some hyp
      have hmemX : (p, extsX) ∈ x := mem_of_lookupKey_eq_some hxp
      have hnY : (keysOf extsY).Nodup := hy.2 (p, extsY) hmemY
      have hnX : (keysOf extsX).Nodup := hx.2 (p, extsX) hmemX
      apply sortedAssoc_ext
      · exact pairwise_keyStrict_of_nodup (List.sorted_insertionSort (@keyLe _) extsY)
          (nodup_keys_sortedItems hnY)
      · exact pairwise_keyStrict_of_nodup (List.sorted_insertionSort (@keyLe _) extsX)
          (nodup_keys_sortedItems hnX)
      · intro e
        have hY : lookupKey (sortedItems extsY) e = lookupKey extsY e :=
          lookupKey_of_perm (List.perm_insertionSort (@keyLe _) extsY)
            (nodup_keys_sortedItems hnY) e
        have hX : lookupKey (sortedItems extsX) e = lookupKey extsX e :=
          lookupKey_of_perm (List.perm_insertionSort (@keyLe _) extsX)
            (nodup_keys_sortedItems hnX) e
        have hle := hlook p e
        unfold lookup2 at hle
        rw [hyp, hxp] at hle
        rw [hY, hX]
        exact hle

/-- C6: persistence is lossless and canonical: decoding the encoded form of
an Index x yields exactly the sorted-key canonical form of x, which has the
same publisher key set, the same publisher presence and the same version
list under every publisher and extension key as x; and any key-nodup Index
with the same presence and lookups as x — in particular the same in-memory
Index encoded twice — produces the identical JSON tree and byte-identical
text. -/
theorem c6_persistence_round_trip (x : Index) (hx : NodupIndex x) :
    decodeIndex (encodeIndex x) = some (canon x)
    ∧ List.Perm (keysOf (canon x)) (keysOf x)
    ∧ (∀ p, (lookupKey (canon x) p).isSome = (lookupKey x p).isSome)
    ∧ (∀ p e, lookup2 (canon x) p e = lookup2 x p e)
    ∧ (∀ y, NodupIndex y →
        (∀ p, (lookupKey y p).isSome = (lookupKey x p).isSome) →
        (∀ p e, lookup2 y p e = lookup2 x p e) →
        encodeIndex y = encodeIndex x ∧ encodeIndexText y = encodeIndexText x) := by
  refine ⟨decodeIndex_encodeIndex x, canon_keys_perm x, lookupKey_canon_isSome x hx,
    lookup2_canon x hx, ?_⟩
  intro y hy hsome hlook
  have hc : canon y = canon x := canon_eq_of_lookup_eq x y hx hy hsome hlook
  constructor
  · rw [encodeIndex_eq_encodeCanon, encodeIndex_eq_encodeCanon, hc]
  · rw [encodeIndexText_eq_textOfCanon, encodeIndexText_eq_textOfCanon, hc]

/-- Witness for C6 at a concrete two-publisher index given in unsorted
order. -/
theorem c6_persistence_round_trip_witness :
    NodupIndex [("zeta", [("x", ["2.0.0", "1.0.0"])]), ("acme", [("foo", ["1.0.0"])])]
    ∧ decodeIndex (encodeIndex
        [("zeta", [("x", ["2.0.0", "1.0.0"])]), ("acme", [("foo", ["1.0.0"])])]) =
      some (canon [("zeta", [("x", ["2.0.0", "1.0.0"])]), ("acme", [("foo", ["1.0.0"])])]) :=
  ⟨by decide,
    (c6_persistence_round_trip
      [("zeta", [("x", ["2.0.0", "1.0.0"])]), ("acme", [("foo", ["1.0.0"])])] (by decide)).1⟩

/-- C10: the version order of the planner is plain descending string
comparison (code-point lexicographic), not semantic versioning: every
planned version sequence is descending in that order, and for the versions
9.0.0 and 10.0.0 the planner visits 9.0.0 first even though 10.0.0 is the
semantically newer one. -/
theorem c10_string_order_not_semver :
    (∀ vs : List String, List.Sorted pyGe (sortDescending vs))
    ∧ planTargets [("rebornix", [("Ruby", ["9.0.0", "10.0.0"])])] =
      [("rebornix", "Ruby", "9.0.0"), ("rebornix", "Ruby", "10.0.0")] :=
  ⟨fun vs => List.sorted_insertionSort pyGe vs, by decide⟩

end VscodeMirror
